import Mathlib

/-!
# Verification of the Hermite interpolation evaluator `hrmint_`

Shallow embedding of `src/src/math/polyfit/cdemo/hrmint.c` (the f2c
translation of SPICELIB's HRMINT routine).  C `double` values are modelled
as rationals `ℚ`; the caller-supplied flat work buffer (`double *work`) is
modelled as a total function `ℕ → ℚ` updated pointwise, exactly mirroring
the flat indices computed by the C code (with `work_dim1 = 2*n` and
`work_offset = 2*n + 1`, the C cell `work[r + work_dim1 - work_offset]`
is flat index `r - 1` — column 1, rows `1..2n` at flat `0..2n-1` — and
`work[r + 2*work_dim1 - work_offset]` is flat index `r - 1 + 2n` — column
2 at flat `2n..4n-1`).

Note on division: the C code contains no zero-denominator test (the
SPICE error-handling calls `chkin_`/`sigerr_` are commented out in this
translation), so a duplicate abscissa makes it execute an IEEE division
by zero and keep going.  In the rational model, division by zero yields
`0` (Lean's convention) and execution likewise continues; theorems about
degenerate inputs state only which denominators occur and that the call
still returns a computed pair, never a typed error.

The embedded diagnostic `printf` loops (which scan `work[0..255]` for a
zero sentinel) are pure tracing with no effect on the computed values
and are not part of the model.
-/

namespace Hrmint

/-- Pointwise update of the flat work buffer: `update w k v` is the buffer
`w` with cell `k` overwritten by `v`. -/
def update (w : ℕ → ℚ) (k : ℕ) (v : ℚ) : ℕ → ℚ :=
  fun j => if j = k then v else w j

/-- `xi = (i__ + 1) / 2` from the C source (integer division): the physical
abscissa index (1-based) for theoretical row `i`. -/
def xiIdx (i : ℕ) : ℕ := (i + 1) / 2

/-- `xij = (i__ + j + 1) / 2` from the C source (integer division): the
physical abscissa index (1-based) for theoretical row `i + j`. -/
def xijIdx (i j : ℕ) : ℕ := (i + j + 1) / 2

/-- The copy loop `for (i__ = 1; i__ <= *n * 2; ++i__) work[i__ - 1] =
yvals[i__ - 1];`: loads the `2n` interleaved value/derivative inputs into
column 1 of the work table. -/
def initTable (n : ℕ) (yvals : ℕ → ℚ) (w : ℕ → ℚ) : ℕ → ℚ :=
  (List.range (2 * n)).foldl (fun w k => update w k (yvals k)) w

/-- One iteration (loop variable `i__ = i`, 1-based) of the linear-stage
loop (C lines 314–348).  `prev = 2i - 1`, `this = 2i`, `next = 2i + 1`
are 1-based rows; column-1 cells sit at flat `row - 1` and column-2 cells
at flat `row - 1 + 2n`. -/
def linBody (n : ℕ) (xvals : ℕ → ℚ) (x : ℚ) (w : ℕ → ℚ) (i : ℕ) : ℕ → ℚ :=
  let c1 := xvals i - x
  let c2 := x - xvals (i - 1)
  let denom := xvals i - xvals (i - 1)
  let prev1 := 2 * i - 2
  let this1 := 2 * i - 1
  let next1 := 2 * i
  let w1 := update w (2 * n + 2 * i - 2) (w this1)
  let w2 := update w1 (2 * n + 2 * i - 1) ((w1 next1 - w1 prev1) / denom)
  let temp := w2 this1 * (x - xvals (i - 1)) + w2 prev1
  let w3 := update w2 this1 ((c1 * w2 prev1 + c2 * w2 next1) / denom)
  update w3 prev1 temp

/-- The linear-stage loop `for (i__ = 1; i__ <= *n - 1; ++i__)`. -/
def linearStage (n : ℕ) (xvals : ℕ → ℚ) (x : ℚ) (w : ℕ → ℚ) : ℕ → ℚ :=
  (List.range' 1 (n - 1)).foldl (linBody n xvals x) w

/-- Boundary completion (C lines 375–376): writes the order-1 derivative
and value entries of row `2n - 1`, which the linear-stage loop never
reaches.  Flat indices: `4n - 2` (column 2, row `2n - 1`) and `2n - 2`
(column 1, row `2n - 1`); both right-hand sides read column 1 row `2n`
(flat `2n - 1`), which still holds the last input derivative. -/
def boundaryStep (n : ℕ) (xvals : ℕ → ℚ) (x : ℚ) (w : ℕ → ℚ) : ℕ → ℚ :=
  let w1 := update w (4 * n - 2) (w (2 * n - 1))
  update w1 (2 * n - 2) (w1 (2 * n - 1) * (x - xvals (n - 1)) + w1 (2 * n - 2))

/-- One iteration of the inner triangular-reduction loop (C lines
404–427), at column `j` and row `i__ = i` (both 1-based).  The derivative
update is performed first, then the value update, exactly as in the
source. -/
def triBody (n : ℕ) (xvals : ℕ → ℚ) (x : ℚ) (j : ℕ) (w : ℕ → ℚ) (i : ℕ) : ℕ → ℚ :=
  let xi := xiIdx i
  let xij := xijIdx i j
  let c1 := xvals (xij - 1) - x
  let c2 := x - xvals (xi - 1)
  let denom := xvals (xij - 1) - xvals (xi - 1)
  let w1 := update w (2 * n + i - 1)
    ((c1 * w (2 * n + i - 1) + c2 * w (2 * n + i) + (w i - w (i - 1))) / denom)
  update w1 (i - 1) ((c1 * w1 (i - 1) + c2 * w1 i) / denom)

/-- The triangular-reduction double loop (C lines 390–429):
`for (j = 2; j <= 2n - 1; ++j) for (i__ = 1; i__ <= 2n - j; ++i__)`. -/
def triangularStage (n : ℕ) (xvals : ℕ → ℚ) (x : ℚ) (w : ℕ → ℚ) : ℕ → ℚ :=
  (List.range' 2 (2 * n - 2)).foldl
    (fun w j => (List.range' 1 (2 * n - j)).foldl (triBody n xvals x j) w) w

/-- The full evaluator `hrmint_`.  Inputs: `n` (C `integer`), the abscissa
array `xvals` (0-based), the interleaved value/derivative array `yvals`
(0-based: point `p` has value `yvals (2p)` and derivative `yvals (2p+1)`),
the evaluation point `x`, and the caller's work buffer.  Returns the final
work buffer together with the pair written through the out-pointers
`f`/`df`; on the `n < 1` early-return path nothing is written to `work`,
`f` or `df` (the C prints a message and returns `0`, the same return code
as on success), which the model renders as `(work, none)`. -/
def hrmint (n : ℤ) (xvals yvals : ℕ → ℚ) (x : ℚ) (work : ℕ → ℚ) :
    (ℕ → ℚ) × Option (ℚ × ℚ) :=
  if n < 1 then (work, none)
  else
    let N := n.toNat
    let w := triangularStage N xvals x
      (boundaryStep N xvals x (linearStage N xvals x (initTable N yvals work)))
    (w, some (w 0, w (2 * N)))

/-- All denominators divided by during a call with size `n ≥ 1`, in
execution order: the `n - 1` linear-stage denominators
`xvals[i__] - xvals[i__ - 1]`, then the triangular-stage denominators
`xvals[xij - 1] - xvals[xi - 1]` for `j = 2..2n-1`, `i = 1..2n-j`. -/
def hrmintDenoms (n : ℕ) (xvals : ℕ → ℚ) : List ℚ :=
  (List.range' 1 (n - 1)).map (fun i => xvals i - xvals (i - 1)) ++
    (List.range' 2 (2 * n - 2)).flatMap (fun j =>
      (List.range' 1 (2 * n - j)).map (fun i =>
        xvals (xijIdx i j - 1) - xvals (xiIdx i - 1)))

/-- Example inputs from the documentation block of `hrmint.c` (`N = 4`,
the constraints of `f(x) = x^7 + 2x^2 + 5`). -/
def exXvals : ℕ → ℚ := fun k => [(-1 : ℚ), 0, 3, 5].getD k 0

/-- Example ordinate/derivative inputs from the documentation block of
`hrmint.c`. -/
def exYvals : ℕ → ℚ := fun k => [(6 : ℚ), 3, 5, 0, 2210, 5115, 78180, 109395].getD k 0

/-- The 0-based indices into `xvals` read by the interpolation computation
of `hrmint_` for size `n ≥ 1`, in execution order: the linear stage reads
`xvals[i__]` and `xvals[i__ - 1]` for `i__ = 1..n-1`, the boundary
completion reads `xvals[n - 1]`, and the triangular reduction reads
`xvals[xij - 1]` and `xvals[xi - 1]`. -/
def xvalsAccesses (n : ℕ) : List ℕ :=
  ((List.range' 1 (n - 1)).flatMap (fun i => [i, i - 1])) ++ [n - 1] ++
    ((List.range' 2 (2 * n - 2)).flatMap (fun j =>
      (List.range' 1 (2 * n - j)).flatMap (fun i => [xijIdx i j - 1, xiIdx i - 1])))

/-- The 0-based indices into `yvals` read by `hrmint_` for size `n ≥ 1`:
the copy loop reads `yvals[i__ - 1]` for `i__ = 1..2n`. -/
def yvalsAccesses (n : ℕ) : List ℕ := List.range (2 * n)

/-- The flat 0-based indices into the work buffer read or written by the
interpolation computation of `hrmint_` for size `n ≥ 1`: the copy loop
writes `0..2n-1`; linear-stage iteration `i__` touches column-1 cells
`2i-2, 2i-1, 2i` and column-2 cells `2n+2i-2, 2n+2i-1`; the boundary
completion touches `2n-1, 2n-2, 4n-2`; triangular iteration `(i__, j)`
touches `i-1, i, 2n+i-1, 2n+i`; the result extraction reads `0` and `2n`. -/
def workAccesses (n : ℕ) : List ℕ :=
  List.range (2 * n) ++
    ((List.range' 1 (n - 1)).flatMap (fun i =>
      [2 * i - 2, 2 * i - 1, 2 * i, 2 * n + 2 * i - 2, 2 * n + 2 * i - 1])) ++
    [2 * n - 1, 2 * n - 2, 4 * n - 2] ++
    ((List.range' 2 (2 * n - 2)).flatMap (fun j =>
      (List.range' 1 (2 * n - j)).flatMap (fun i =>
        [i - 1, i, 2 * n + i - 1, 2 * n + i]))) ++
    [0, 2 * n]

/-! ## Generic lemmas: pointwise buffers and folds -/

theorem update_apply (w : ℕ → ℚ) (k j : ℕ) (v : ℚ) :
    update w k v j = if j = k then v else w j := rfl

theorem foldl_frame {β : Type} (f : (ℕ → ℚ) → β → ℕ → ℚ) (L : List β) (k : ℕ)
    (h : ∀ b ∈ L, ∀ w, f w b k = w k) : ∀ w, (L.foldl f w) k = w k := by
  induction L with
  | nil => intro w; rfl
  | cons b t ih =>
    intro w
    rw [List.foldl_cons, ih (fun c hc w => h c (List.mem_cons_of_mem _ hc) w),
      h b (List.mem_cons_self _ _)]

theorem foldl_rel {α β : Type*} (R : α → α → Prop) (f : α → β → α) (L : List β)
    (h : ∀ b ∈ L, ∀ a a', R a a' → R (f a b) (f a' b)) :
    ∀ a a', R a a' → R (L.foldl f a) (L.foldl f a') := by
  induction L with
  | nil => exact fun a a' hr => hr
  | cons b t ih =>
    intro a a' hr
    exact ih (fun c hc => h c (List.mem_cons_of_mem _ hc)) _ _
      (h b (List.mem_cons_self _ _) a a' hr)

/-! ## The copy loop -/

theorem initFold_apply (y : ℕ → ℚ) :
    ∀ (m : ℕ) (w : ℕ → ℚ) (k : ℕ),
      (List.range m).foldl (fun w k => update w k (y k)) w k =
        if k < m then y k else w k := by
  intro m
  induction m with
  | zero => intro w k; simp
  | succ m ih =>
    intro w k
    rw [List.range_succ, List.foldl_concat]
    by_cases hk : k = m
    · subst hk; simp [update]
    · rw [update_apply, if_neg hk, ih]
      by_cases hlt : k < m
      · rw [if_pos hlt, if_pos (by omega)]
      · rw [if_neg hlt, if_neg (by omega)]

theorem initTable_apply (n : ℕ) (y : ℕ → ℚ) (w : ℕ → ℚ) (k : ℕ) :
    initTable n y w k = if k < 2 * n then y k else w k :=
  initFold_apply y (2 * n) w k

/-! ## Cell-level description of one linear-stage iteration -/

theorem linBody_apply (n : ℕ) (xv : ℕ → ℚ) (x : ℚ) (w : ℕ → ℚ) (i k : ℕ)
    (hn : 2 ≤ n) (hi : 1 ≤ i) :
    linBody n xv x w i k =
      if k = 2 * i - 2 then w (2 * i - 1) * (x - xv (i - 1)) + w (2 * i - 2)
      else if k = 2 * i - 1 then
        ((xv i - x) * w (2 * i - 2) + (x - xv (i - 1)) * w (2 * i)) / (xv i - xv (i - 1))
      else if k = 2 * n + 2 * i - 1 then (w (2 * i) - w (2 * i - 2)) / (xv i - xv (i - 1))
      else if k = 2 * n + 2 * i - 2 then w (2 * i - 1)
      else w k := by
  simp only [linBody, update_apply]
  rw [if_neg (by omega : ¬(2 * i = 2 * n + 2 * i - 1)),
    if_neg (by omega : ¬(2 * i = 2 * n + 2 * i - 2)),
    if_neg (by omega : ¬(2 * i - 2 = 2 * n + 2 * i - 1)),
    if_neg (by omega : ¬(2 * i - 2 = 2 * n + 2 * i - 2)),
    if_neg (by omega : ¬(2 * i - 1 = 2 * n + 2 * i - 1)),
    if_neg (by omega : ¬(2 * i - 1 = 2 * n + 2 * i - 2))]

/-! ## Cell-level description of one triangular-reduction iteration -/

theorem triBody_apply (n : ℕ) (xv : ℕ → ℚ) (x : ℚ) (j : ℕ) (w : ℕ → ℚ) (i k : ℕ)
    (hn : 1 ≤ n) (hi : 1 ≤ i) :
    triBody n xv x j w i k =
      if k = i - 1 then
        ((xv (xijIdx i j - 1) - x) * w (i - 1) + (x - xv (xiIdx i - 1)) * w i) /
          (xv (xijIdx i j - 1) - xv (xiIdx i - 1))
      else if k = 2 * n + i - 1 then
        ((xv (xijIdx i j - 1) - x) * w (2 * n + i - 1) +
            (x - xv (xiIdx i - 1)) * w (2 * n + i) + (w i - w (i - 1))) /
          (xv (xijIdx i j - 1) - xv (xiIdx i - 1))
      else w k := by
  simp only [triBody, update_apply]
  rw [if_neg (by omega : ¬(i - 1 = 2 * n + i - 1)),
    if_neg (by omega : ¬(i = 2 * n + i - 1))]

/-! ## The linear stage, cell by cell -/

/-- Expected contents of the work buffer after the first `m` iterations of
the linear-stage loop, starting from the table freshly loaded with `y`:
column-1 cells `k < 2m` hold the order-1 interpolants evaluated at `x`
(Taylor on even flats, blended on odd flats), column-1 cells `2m ≤ k < 2n`
still hold the inputs, column-2 cells `2n ≤ k < 2n + 2m` hold the order-1
derivatives (copied input derivatives on even offsets, finite-difference
slopes on odd offsets), and everything else still holds the caller's `w`. -/
def linExpect (n m : ℕ) (xv y : ℕ → ℚ) (x : ℚ) (w : ℕ → ℚ) : ℕ → ℚ := fun k =>
  if k < 2 * m then
    (if k % 2 = 0 then y (k + 1) * (x - xv (k / 2)) + y k
     else ((xv ((k + 1) / 2) - x) * y (k - 1) + (x - xv ((k + 1) / 2 - 1)) * y (k + 1)) /
        (xv ((k + 1) / 2) - xv ((k + 1) / 2 - 1)))
  else if k < 2 * n then y k
  else if k < 2 * n + 2 * m then
    (if (k - 2 * n) % 2 = 0 then y (k - 2 * n + 1)
     else (y (k - 2 * n + 1) - y (k - 2 * n - 1)) /
        (xv ((k - 2 * n + 1) / 2) - xv ((k - 2 * n + 1) / 2 - 1)))
  else w k

theorem linearFold_eq (n : ℕ) (xv y : ℕ → ℚ) (x : ℚ) (w : ℕ → ℚ) :
    ∀ m, m ≤ n - 1 →
      (List.range' 1 m).foldl (linBody n xv x) (initTable n y w) = linExpect n m xv y x w := by
  intro m
  induction m with
  | zero =>
    intro _
    funext k
    have h0 : List.range' 1 0 = ([] : List ℕ) := rfl
    rw [h0, List.foldl_nil, initTable_apply]
    simp only [linExpect, Nat.mul_zero, Nat.add_zero]
    rw [if_neg (Nat.not_lt_zero k)]
    by_cases h2 : k < 2 * n
    · rw [if_pos h2, if_pos h2]
    · rw [if_neg h2, if_neg h2, if_neg h2]
  | succ m ih =>
    intro hm1
    have hm : m ≤ n - 1 := by omega
    have hn2 : 2 ≤ n := by omega
    rw [List.range'_concat, List.foldl_concat, ih hm]
    have hi : 1 + 1 * m = m + 1 := by omega
    rw [hi]
    funext k
    rw [linBody_apply n xv x _ (m + 1) k hn2 (by omega)]
    have i2 : 2 * (m + 1) - 2 = 2 * m := by omega
    have i1 : 2 * (m + 1) - 1 = 2 * m + 1 := by omega
    have i0 : 2 * (m + 1) = 2 * m + 2 := by omega
    have j1 : 2 * n + 2 * (m + 1) - 1 = 2 * n + 2 * m + 1 := by omega
    have j2 : 2 * n + 2 * (m + 1) - 2 = 2 * n + 2 * m := by omega
    have im : m + 1 - 1 = m := by omega
    rw [i2, i1, j1, j2, im, i0]
    have r1 : linExpect n m xv y x w (2 * m) = y (2 * m) := by
      simp only [linExpect]
      rw [if_neg (by omega), if_pos (by omega)]
    have r2 : linExpect n m xv y x w (2 * m + 1) = y (2 * m + 1) := by
      simp only [linExpect]
      rw [if_neg (by omega), if_pos (by omega)]
    have r3 : linExpect n m xv y x w (2 * m + 2) = y (2 * m + 2) := by
      simp only [linExpect]
      rw [if_neg (by omega), if_pos (by omega)]
    rw [r1, r2, r3]
    by_cases h1 : k = 2 * m
    · subst h1
      rw [if_pos rfl]
      simp only [linExpect]
      rw [if_pos (by omega), if_pos (by omega)]
      have : 2 * m / 2 = m := by omega
      rw [this]
    · rw [if_neg h1]
      by_cases h2 : k = 2 * m + 1
      · subst h2
        rw [if_pos rfl]
        simp only [linExpect]
        rw [if_pos (by omega), if_neg (by omega)]
        have e1 : (2 * m + 1 + 1) / 2 = m + 1 := by omega
        have e2 : 2 * m + 1 - 1 = 2 * m := by omega
        have e3 : 2 * m + 1 + 1 = 2 * m + 2 := by omega
        rw [e1, e2, e3]
        simp only [im]
      · rw [if_neg h2]
        by_cases h3 : k = 2 * n + 2 * m + 1
        · subst h3
          rw [if_pos rfl]
          simp only [linExpect]
          rw [if_neg (by omega), if_neg (by omega), if_pos (by omega), if_neg (by omega)]
          have e3 : (2 * n + 2 * m + 1 - 2 * n + 1) / 2 = m + 1 := by omega
          have e1 : 2 * n + 2 * m + 1 - 2 * n + 1 = 2 * m + 2 := by omega
          have e2 : 2 * n + 2 * m + 1 - 2 * n - 1 = 2 * m := by omega
          rw [e3, e1, e2]
          simp only [im]
        · rw [if_neg h3]
          by_cases h4 : k = 2 * n + 2 * m
          · subst h4
            rw [if_pos rfl]
            simp only [linExpect]
            rw [if_neg (by omega), if_neg (by omega), if_pos (by omega), if_pos (by omega)]
            have e1 : 2 * n + 2 * m - 2 * n + 1 = 2 * m + 1 := by omega
            rw [e1]
          · rw [if_neg h4]
            simp only [linExpect]
            by_cases c1 : k < 2 * m
            · rw [if_pos c1, if_pos (show k < 2 * (m + 1) by omega)]
            · rw [if_neg c1, if_neg (show ¬(k < 2 * (m + 1)) by omega)]
              by_cases c2 : k < 2 * n
              · rw [if_pos c2, if_pos c2]
              · rw [if_neg c2, if_neg c2]
                by_cases c3 : k < 2 * n + 2 * m
                · rw [if_pos c3, if_pos (show k < 2 * n + 2 * (m + 1) by omega)]
                · rw [if_neg c3, if_neg (show ¬(k < 2 * n + 2 * (m + 1)) by omega)]

theorem linearStage_eq (n : ℕ) (xv y : ℕ → ℚ) (x : ℚ) (w : ℕ → ℚ) :
    linearStage n xv x (initTable n y w) = linExpect n (n - 1) xv y x w :=
  linearFold_eq n xv y x w (n - 1) le_rfl

/-! ## The boundary completion, cell by cell -/

theorem boundary_apply (n : ℕ) (hn : 1 ≤ n) (xv y : ℕ → ℚ) (x : ℚ) (w : ℕ → ℚ) (k : ℕ) :
    boundaryStep n xv x (linearStage n xv x (initTable n y w)) k =
      if k = 4 * n - 2 then y (2 * n - 1)
      else if k = 2 * n - 2 then y (2 * n - 1) * (x - xv (n - 1)) + y (2 * n - 2)
      else linExpect n (n - 1) xv y x w k := by
  rw [linearStage_eq]
  have r1 : linExpect n (n - 1) xv y x w (2 * n - 1) = y (2 * n - 1) := by
    simp only [linExpect]
    rw [if_neg (by omega), if_pos (by omega)]
  have r2 : linExpect n (n - 1) xv y x w (2 * n - 2) = y (2 * n - 2) := by
    simp only [linExpect]
    rw [if_neg (by omega), if_pos (by omega)]
  simp only [boundaryStep, update_apply]
  rw [if_neg (by omega : ¬(2 * n - 1 = 4 * n - 2)),
    if_neg (by omega : ¬(2 * n - 2 = 4 * n - 2)), r1, r2]
  by_cases h1 : k = 2 * n - 2
  · subst h1
    rw [if_pos rfl, if_neg (by omega), if_pos rfl]
  · rw [if_neg h1]
    by_cases h2 : k = 4 * n - 2
    · subst h2; rw [if_pos rfl, if_pos rfl]
    · simp only [if_neg h1, if_neg h2]

/-! ## Ceiling characterization of the index compression -/

theorem nat_succ_half_eq_ceil (m : ℕ) : (((m + 1) / 2 : ℕ) : ℤ) = ⌈(m : ℚ) / 2⌉ := by
  rcases Nat.even_or_odd m with ⟨t, ht⟩ | ⟨t, ht⟩
  · subst ht
    have h1 : ((t + t + 1) / 2 : ℕ) = t := by omega
    have h2 : ((t + t : ℕ) : ℚ) / 2 = (t : ℚ) := by push_cast; ring
    rw [h1, h2]
    rw [show ((t : ℚ)) = ((t : ℤ) : ℚ) by push_cast; ring, Int.ceil_intCast]
  · subst ht
    have h1 : ((2 * t + 1 + 1) / 2 : ℕ) = t + 1 := by omega
    rw [h1]
    symm
    rw [Int.ceil_eq_iff]
    constructor
    · push_cast; linarith
    · push_cast; linarith

/-! ## Claim C5: the triangular-stage physical indices are ceilings -/

/-- C5: in the triangular reduction, for every order `j ∈ [2, 2N-1]` and
row `i ∈ [1, 2N-j]`, the physical abscissa indices used to form `c1`,
`c2` and the denominator are `xi = ⌈i/2⌉` and `xij = ⌈(i+j)/2⌉`, the
compression of the theoretical `2N`-row table onto the `N` physical
abscissas (the third conjunct: `xij` is exactly the compression map
applied to the theoretical row `i + j`). -/
theorem hrmint_triangular_index_compression (n i j : ℕ) (hj2 : 2 ≤ j)
    (hj : j ≤ 2 * n - 1) (hi1 : 1 ≤ i) (hi : i ≤ 2 * n - j) :
    (xiIdx i : ℤ) = ⌈(i : ℚ) / 2⌉ ∧ (xijIdx i j : ℤ) = ⌈((i + j : ℕ) : ℚ) / 2⌉ ∧
      xijIdx i j = xiIdx (i + j) :=
  ⟨nat_succ_half_eq_ceil i, nat_succ_half_eq_ceil (i + j), rfl⟩

theorem hrmint_triangular_index_compression_witness :
    (2 ≤ 2 * 2 - 1 ∧ 1 ≤ 2 * 2 - 2) ∧
      ((xiIdx 1 : ℤ) = ⌈(1 : ℚ) / 2⌉ ∧ (xijIdx 1 2 : ℤ) = ⌈((1 + 2 : ℕ) : ℚ) / 2⌉ ∧
        xijIdx 1 2 = xiIdx (1 + 2)) :=
  ⟨⟨by norm_num, by norm_num⟩,
    hrmint_triangular_index_compression 2 1 2 le_rfl (by norm_num) le_rfl (by norm_num)⟩

/-! ## Claim C3: nonpositive size returns nothing -/

/-- C3 evidence: for `n < 1` the call returns immediately: nothing is
written through `f`/`df` and the work buffer is returned unchanged.  (The
C code prints a diagnostic and returns the integer `0` — the same return
value as on success — instead of signaling SPICE(INVALIDSIZE) as its own
`$Exceptions` documentation promises; the model therefore has no error
value to return, only the unwritten out-parameters.) -/
theorem hrmint_nonpositive_size_returns_nothing (n : ℤ) (hn : n < 1)
    (xv y : ℕ → ℚ) (x : ℚ) (w : ℕ → ℚ) : hrmint n xv y x w = (w, none) := by
  simp only [hrmint, if_pos hn]

theorem hrmint_nonpositive_size_returns_nothing_witness :
    hrmint 0 exXvals exYvals 2 (fun _ => 0) = (fun _ => (0 : ℚ), none) :=
  hrmint_nonpositive_size_returns_nothing 0 (by norm_num) exXvals exYvals 2 (fun _ => 0)

/-! ## Claim C7: nonpositive size never touches the scratch buffer -/

/-- C7 evidence: for `n < 1` every cell of the scratch buffer holds the
same value after the call as before it (the early return happens before
the copy loop).  As with C3, the "returns InvalidSize" half of the claim
fails on this translation: the C code only prints and returns `0`. -/
theorem hrmint_nonpositive_size_preserves_scratch (n : ℤ) (hn : n < 1)
    (xv y : ℕ → ℚ) (x : ℚ) (w : ℕ → ℚ) (k : ℕ) : (hrmint n xv y x w).1 k = w k := by
  simp only [hrmint, if_pos hn]

theorem hrmint_nonpositive_size_preserves_scratch_witness :
    (hrmint (-3) exXvals exYvals 2 exYvals).1 5 = exYvals 5 :=
  hrmint_nonpositive_size_preserves_scratch (-3) (by norm_num) exXvals exYvals 2 exYvals 5

/-! ## Claim C2: duplicate abscissas reach a zero denominator and still
return a computed pair -/

/-- C2 evidence (code bug): with duplicate abscissas (here all equal to
`1`) a zero denominator actually occurs among the denominators divided
by, yet the call still returns a computed numeric pair through `f`/`df`
(`isSome`), because this translation has no zero test: the SPICE
`chkin_`/`sigerr_` calls that would signal SPICE(DIVIDEBYZERO) are
commented out.  In IEEE arithmetic the division produces Inf/NaN; in the
rational model it follows the `q / 0 = 0` convention.  Either way no
error is reported, contradicting the `$Exceptions` block of the file. -/
theorem hrmint_duplicate_abscissas_no_error :
    (0 : ℚ) ∈ hrmintDenoms 2 (fun _ => 1) ∧
      ((hrmint 2 (fun _ => (1 : ℚ)) exYvals 0 (fun _ => 0)).2).isSome = true := by
  constructor
  · have : ((fun _ => (1 : ℚ)) 1 - (fun _ => (1 : ℚ)) 0) = 0 := by norm_num
    simp [hrmintDenoms, List.range', this]
  · rfl

/-! ## Claim C9: all accesses stay within the documented bounds -/

/-- C9: for `n ≥ 1` every index the interpolation computation uses is in
bounds: abscissa indices lie in `[0, n-1]` (in particular
`xij = ⌈(i+j)/2⌉ ≤ n` for every visited pair), ordinate indices lie in
`[0, 2n-1]`, and flat work-buffer indices lie in `[0, 4n-1]`, so arrays
of length exactly `n`, `2n` and `4n` suffice. -/
theorem hrmint_accesses_within_bounds (n : ℕ) (hn : 1 ≤ n) :
    (∀ k ∈ xvalsAccesses n, k < n) ∧ (∀ k ∈ yvalsAccesses n, k < 2 * n) ∧
      (∀ k ∈ workAccesses n, k < 4 * n) := by
  refine ⟨?_, ?_, ?_⟩
  · intro k hk
    simp only [xvalsAccesses, List.mem_append, List.mem_flatMap, List.mem_range'_1,
      List.mem_cons, List.not_mem_nil, or_false] at hk
    obtain (⟨i, hi, hk | hk⟩ | hk) | ⟨j, hj, i, hi, hk | hk⟩ := hk
    all_goals try simp only [xijIdx, xiIdx] at hk
    all_goals omega
  · intro k hk
    simp only [yvalsAccesses, List.mem_range] at hk
    omega
  · intro k hk
    simp only [workAccesses, List.mem_append, List.mem_flatMap, List.mem_range'_1,
      List.mem_range, List.mem_cons, List.not_mem_nil, or_false] at hk
    obtain (((hk | ⟨i, hi, hk | hk | hk | hk | hk⟩) | (hk | hk | hk)) |
      ⟨j, hj, i, hi, hk | hk | hk | hk⟩) | (hk | hk) := hk
    all_goals omega

theorem hrmint_accesses_within_bounds_witness :
    (∀ k ∈ xvalsAccesses 2, k < 2) ∧ (∀ k ∈ yvalsAccesses 2, k < 2 * 2) ∧
      (∀ k ∈ workAccesses 2, k < 4 * 2) :=
  hrmint_accesses_within_bounds 2 (by norm_num)

/-! ## Claim C6: the boundary completion writes exactly row 2N-1 -/

/-- C6: after the linear-stage loop over the `N-1` adjacent intervals,
the boundary completion writes exactly the two cells of table row `2N-1`
(flat `4N-2` in the derivative column and flat `2N-2` in the value
column), setting the derivative entry to the last input derivative
`y'_N = yvals (2N-1)` and the value entry to the Taylor extrapolation
`y'_N * (x - x_N) + y_N`; every other cell is unchanged. -/
theorem hrmint_boundary_completion (n : ℕ) (hn : 1 ≤ n) (xv y : ℕ → ℚ) (x : ℚ)
    (w : ℕ → ℚ) :
    boundaryStep n xv x (linearStage n xv x (initTable n y w)) (4 * n - 2) =
        y (2 * n - 1) ∧
      boundaryStep n xv x (linearStage n xv x (initTable n y w)) (2 * n - 2) =
        y (2 * n - 1) * (x - xv (n - 1)) + y (2 * n - 2) ∧
      ∀ k, k ≠ 4 * n - 2 → k ≠ 2 * n - 2 →
        boundaryStep n xv x (linearStage n xv x (initTable n y w)) k =
          linearStage n xv x (initTable n y w) k := by
  refine ⟨?_, ?_, ?_⟩
  · rw [boundary_apply n hn, if_pos rfl]
  · rw [boundary_apply n hn, if_neg (by omega), if_pos rfl]
  · intro k h1 h2
    rw [boundary_apply n hn, if_neg h1, if_neg h2, linearStage_eq]

theorem hrmint_boundary_completion_witness :
    boundaryStep 1 exXvals 2 (linearStage 1 exXvals 2 (initTable 1 exYvals fun _ => 0)) 2
        = 3 ∧
      boundaryStep 1 exXvals 2 (linearStage 1 exXvals 2 (initTable 1 exYvals fun _ => 0)) 0
        = 15 := by
  obtain ⟨h1, h2, -⟩ := hrmint_boundary_completion 1 le_rfl exXvals exYvals 2 (fun _ => 0)
  norm_num at h1 h2
  refine ⟨?_, ?_⟩
  · rw [h1]; norm_num [exYvals]
  · rw [h2]; norm_num [exXvals, exYvals]

/-! ## Claim C10: a single point gives the Taylor line, with no division -/

/-- C10: for `N = 1` both interpolation loops are empty, the list of
denominators actually divided by is empty (so no degenerate-input
division can occur), and the evaluator returns exactly
`f = y_1 + y'_1 * (x - x_1)` and `df = y'_1` for every `x`. -/
theorem hrmint_single_point_taylor (xv y : ℕ → ℚ) (x : ℚ) (w : ℕ → ℚ) :
    (hrmint 1 xv y x w).2 = some (y 0 + y 1 * (x - xv 0), y 1) ∧
      hrmintDenoms 1 xv = [] := by
  refine ⟨?_, rfl⟩
  have htri : ∀ a : ℕ → ℚ, triangularStage 1 xv x a = a := fun a => rfl
  have h0 := boundary_apply 1 le_rfl xv y x w 0
  have h2 := boundary_apply 1 le_rfl xv y x w 2
  norm_num at h0 h2
  simp only [hrmint, if_neg (by norm_num : ¬((1 : ℤ) < 1)), Int.toNat_one, htri]
  norm_num [h0, h2, add_comm]

/-! ## Claim C8: determinism / scratch independence -/

theorem triangularStage_agree (n : ℕ) (hn : 1 ≤ n) (xv : ℕ → ℚ) (x : ℚ)
    (a a' : ℕ → ℚ) (ha : ∀ k, k < 4 * n - 1 → a k = a' k) :
    ∀ k, k < 4 * n - 1 → triangularStage n xv x a k = triangularStage n xv x a' k := by
  refine foldl_rel (fun b b' : ℕ → ℚ => ∀ k, k < 4 * n - 1 → b k = b' k)
    (fun w j => (List.range' 1 (2 * n - j)).foldl (triBody n xv x j) w)
    (List.range' 2 (2 * n - 2)) ?_ a a' ha
  intro j hj b b' hb
  rw [List.mem_range'_1] at hj
  refine foldl_rel (fun b b' : ℕ → ℚ => ∀ k, k < 4 * n - 1 → b k = b' k)
    (triBody n xv x j) (List.range' 1 (2 * n - j)) ?_ b b' hb
  intro i hi c c' hc k hk
  rw [List.mem_range'_1] at hi
  rw [triBody_apply n xv x j c i k hn (by omega), triBody_apply n xv x j c' i k hn (by omega)]
  by_cases b1 : k = i - 1
  · rw [if_pos b1, if_pos b1, hc (i - 1) (by omega), hc i (by omega)]
  · rw [if_neg b1, if_neg b1]
    by_cases b2 : k = 2 * n + i - 1
    · rw [if_pos b2, if_pos b2, hc (2 * n + i - 1) (by omega), hc (2 * n + i) (by omega),
        hc i (by omega), hc (i - 1) (by omega)]
    · rw [if_neg b2, if_neg b2, hc k hk]

/-- C8: the pair returned through `f`/`df` depends only on `n`, the input
arrays and `x` — not on the initial contents of the caller's scratch
buffer.  In particular two calls with identical inputs and freshly-zeroed
scratch buffers return identical results; the model is a pure function of
its arguments, so there is no other state a call could read. -/
theorem hrmint_scratch_independent (n : ℤ) (xv y : ℕ → ℚ) (x : ℚ) (w w' : ℕ → ℚ) :
    (hrmint n xv y x w).2 = (hrmint n xv y x w').2 := by
  by_cases hn : n < 1
  · simp only [hrmint, if_pos hn]
  · have hN : 1 ≤ n.toNat := by omega
    have hagree : ∀ k, k < 4 * n.toNat - 1 →
        boundaryStep n.toNat xv x (linearStage n.toNat xv x (initTable n.toNat y w)) k =
          boundaryStep n.toNat xv x (linearStage n.toNat xv x (initTable n.toNat y w')) k := by
      intro k hk
      rw [boundary_apply n.toNat hN, boundary_apply n.toNat hN]
      by_cases h1 : k = 4 * n.toNat - 2
      · rw [if_pos h1, if_pos h1]
      · rw [if_neg h1, if_neg h1]
        by_cases h2 : k = 2 * n.toNat - 2
        · rw [if_pos h2, if_pos h2]
        · rw [if_neg h2, if_neg h2]
          simp only [linExpect]
          by_cases c1 : k < 2 * (n.toNat - 1)
          · rw [if_pos c1, if_pos c1]
          · rw [if_neg c1, if_neg c1]
            by_cases c2 : k < 2 * n.toNat
            · rw [if_pos c2, if_pos c2]
            · rw [if_neg c2, if_neg c2,
                if_pos (show k < 2 * n.toNat + 2 * (n.toNat - 1) by omega),
                if_pos (show k < 2 * n.toNat + 2 * (n.toNat - 1) by omega)]
    have h0 := triangularStage_agree n.toNat hN xv x _ _ hagree 0 (by omega)
    have h2n := triangularStage_agree n.toNat hN xv x _ _ hagree (2 * n.toNat) (by omega)
    simp only [hrmint, if_neg hn]
    rw [h0, h2n]

/-! ## The interpolating-polynomial family behind the triangular table

`node xv k` is the `k`-th theoretical abscissa (1-based): each physical
abscissa occurs twice in the theoretical table, and the compression map
is the same `(k + 1) / 2` used by the code.  `Pord xv y j i` is the
polynomial whose value and derivative at the evaluation point occupy
table row `i` of column `j`: order-1 rows are the Taylor lines (odd rows)
and secant lines (even rows) built by the linear stage, and higher
columns follow exactly the Neville-style combination performed by the
triangular reduction. -/

def node (xv : ℕ → ℚ) (k : ℕ) : ℚ := xv ((k + 1) / 2 - 1)

noncomputable def Pord (xv y : ℕ → ℚ) : ℕ → ℕ → Polynomial ℚ
  | 0, i => Polynomial.C (y (i - 1))
  | 1, i =>
    if i % 2 = 1 then
      Polynomial.C (y (i - 1)) +
        Polynomial.C (y i) * (Polynomial.X - Polynomial.C (xv ((i + 1) / 2 - 1)))
    else
      Polynomial.C (1 / (xv (i / 2) - xv (i / 2 - 1))) *
        ((Polynomial.C (xv (i / 2)) - Polynomial.X) * Polynomial.C (y (i - 2)) +
          (Polynomial.X - Polynomial.C (xv (i / 2 - 1))) * Polynomial.C (y i))
  | j + 2, i =>
    Polynomial.C (1 / (node xv (i + (j + 2)) - node xv i)) *
      ((Polynomial.C (node xv (i + (j + 2))) - Polynomial.X) * Pord xv y (j + 1) i +
        (Polynomial.X - Polynomial.C (node xv i)) * Pord xv y (j + 1) (i + 1))
  termination_by j i => j

theorem Pord_odd_eval (xv y : ℕ → ℚ) (i : ℕ) (hodd : i % 2 = 1) (t : ℚ) :
    (Pord xv y 1 i).eval t = y (i - 1) + y i * (t - xv ((i + 1) / 2 - 1)) := by
  simp [Pord, hodd]

theorem Pord_odd_derivative_eval (xv y : ℕ → ℚ) (i : ℕ) (hodd : i % 2 = 1) (t : ℚ) :
    (Polynomial.derivative (Pord xv y 1 i)).eval t = y i := by
  simp [Pord, hodd]

theorem Pord_even_eval (xv y : ℕ → ℚ) (i : ℕ) (heven : ¬(i % 2 = 1)) (t : ℚ) :
    (Pord xv y 1 i).eval t =
      1 / (xv (i / 2) - xv (i / 2 - 1)) *
        ((xv (i / 2) - t) * y (i - 2) + (t - xv (i / 2 - 1)) * y i) := by
  simp [Pord, heven]

theorem Pord_even_derivative_eval (xv y : ℕ → ℚ) (i : ℕ) (heven : ¬(i % 2 = 1)) (t : ℚ) :
    (Polynomial.derivative (Pord xv y 1 i)).eval t =
      1 / (xv (i / 2) - xv (i / 2 - 1)) * (y i - y (i - 2)) := by
  simp [Pord, heven]
  left
  ring

theorem Pord_step_eval (xv y : ℕ → ℚ) (j i : ℕ) (t : ℚ) :
    (Pord xv y (j + 2) i).eval t =
      1 / (node xv (i + (j + 2)) - node xv i) *
        ((node xv (i + (j + 2)) - t) * (Pord xv y (j + 1) i).eval t +
          (t - node xv i) * (Pord xv y (j + 1) (i + 1)).eval t) := by
  simp [Pord]

theorem Pord_step_derivative_eval (xv y : ℕ → ℚ) (j i : ℕ) (t : ℚ) :
    (Polynomial.derivative (Pord xv y (j + 2) i)).eval t =
      1 / (node xv (i + (j + 2)) - node xv i) *
        ((node xv (i + (j + 2)) - t) * (Polynomial.derivative (Pord xv y (j + 1) i)).eval t +
          (t - node xv i) * (Polynomial.derivative (Pord xv y (j + 1) (i + 1))).eval t +
          ((Pord xv y (j + 1) (i + 1)).eval t - (Pord xv y (j + 1) i).eval t)) := by
  simp [Pord, Polynomial.derivative_mul]
  left
  ring

/-! ## The table invariant -/

/-- `goodCol n xv y x J w r`: rows `1..r` of the work buffer `w` hold, in
column 1, the values `(Pord J i).eval x`, and in column 2 the derivative
values, i.e. the buffer agrees with column `J` of the theoretical
interpolation table on those rows. -/
def goodCol (n : ℕ) (xv y : ℕ → ℚ) (x : ℚ) (J : ℕ) (w : ℕ → ℚ) (r : ℕ) : Prop :=
  ∀ i, 1 ≤ i → i ≤ r →
    w (i - 1) = (Pord xv y J i).eval x ∧
      w (2 * n + i - 1) = (Polynomial.derivative (Pord xv y J i)).eval x

theorem goodCol_base (n : ℕ) (hn : 1 ≤ n) (xv y : ℕ → ℚ) (x : ℚ) (w : ℕ → ℚ) :
    goodCol n xv y x 1
      (boundaryStep n xv x (linearStage n xv x (initTable n y w))) (2 * n - 1) := by
  intro i hi1 hi2
  by_cases hodd : i % 2 = 1
  · by_cases hlast : i = 2 * n - 1
    · subst hlast
      constructor
      · rw [boundary_apply n hn xv y x w, if_neg (by omega), if_pos (by omega)]
        rw [Pord_odd_eval xv y _ hodd]
        have e1 : 2 * n - 1 - 1 = 2 * n - 2 := by omega
        have e2 : (2 * n - 1 + 1) / 2 - 1 = n - 1 := by omega
        rw [e1, e2]
        ring
      · rw [boundary_apply n hn xv y x w, if_pos (by omega)]
        rw [Pord_odd_derivative_eval xv y _ hodd]
    · constructor
      · rw [boundary_apply n hn xv y x w, if_neg (by omega), if_neg (by omega)]
        simp only [linExpect]
        rw [if_pos (by omega), if_pos (by omega)]
        rw [Pord_odd_eval xv y i hodd]
        have e1 : i - 1 + 1 = i := by omega
        have e2 : (i - 1) / 2 = (i + 1) / 2 - 1 := by omega
        rw [e1, e2]
        ring
      · rw [boundary_apply n hn xv y x w, if_neg (by omega), if_neg (by omega)]
        simp only [linExpect]
        rw [if_neg (by omega), if_neg (by omega), if_pos (by omega), if_pos (by omega)]
        rw [Pord_odd_derivative_eval xv y i hodd]
        have e1 : 2 * n + i - 1 - 2 * n + 1 = i := by omega
        rw [e1]
  · constructor
    · rw [boundary_apply n hn xv y x w, if_neg (by omega), if_neg (by omega)]
      simp only [linExpect]
      rw [if_pos (by omega), if_neg (by omega)]
      rw [Pord_even_eval xv y i hodd]
      have e1 : i - 1 + 1 = i := by omega
      have e3 : i - 1 - 1 = i - 2 := by omega
      rw [e1, e3]
      ring
    · rw [boundary_apply n hn xv y x w, if_neg (by omega), if_neg (by omega)]
      simp only [linExpect]
      rw [if_neg (by omega), if_neg (by omega), if_pos (by omega), if_neg (by omega)]
      rw [Pord_even_derivative_eval xv y i hodd]
      have e1 : 2 * n + i - 1 - 2 * n + 1 = i := by omega
      have e2 : 2 * n + i - 1 - 2 * n - 1 = i - 2 := by omega
      rw [e1, e2]
      ring

theorem goodCol_inner (n : ℕ) (hn : 1 ≤ n) (xv y : ℕ → ℚ) (x : ℚ) (J : ℕ) :
    ∀ r, r ≤ 2 * n - (J + 2) → ∀ w, goodCol n xv y x (J + 1) w (2 * n - (J + 1)) →
      goodCol n xv y x (J + 2) ((List.range' 1 r).foldl (triBody n xv x (J + 2)) w) r ∧
        ∀ i, r + 1 ≤ i → i ≤ 2 * n - (J + 1) →
          ((List.range' 1 r).foldl (triBody n xv x (J + 2)) w) (i - 1) =
              (Pord xv y (J + 1) i).eval x ∧
            ((List.range' 1 r).foldl (triBody n xv x (J + 2)) w) (2 * n + i - 1) =
              (Polynomial.derivative (Pord xv y (J + 1) i)).eval x := by
  intro r
  induction r with
  | zero =>
    intro _ w hw
    exact ⟨fun i hi1 hi2 => absurd hi2 (by omega), fun i hi1 hi2 => hw i (by omega) hi2⟩
  | succ r ih =>
    intro hr w hw
    obtain ⟨ih1, ih2⟩ := ih (by omega) w hw
    rw [List.range'_concat, List.foldl_concat]
    have hidx : 1 + 1 * r = r + 1 := by omega
    rw [hidx]
    have er2 : r + 2 - 1 = r + 1 := by omega
    have ed2 : 2 * n + (r + 2) - 1 = 2 * n + (r + 1) := by omega
    have e22 : r + 1 + 1 = r + 2 := rfl
    obtain ⟨hv1, hd1⟩ := ih2 (r + 1) le_rfl (by omega)
    obtain ⟨hv2, hd2⟩ := ih2 (r + 2) (by omega) (by omega)
    rw [er2] at hv2
    rw [ed2] at hd2
    have hnij : xv (xijIdx (r + 1) (J + 2) - 1) = node xv (r + 1 + (J + 2)) := by
      simp only [xijIdx, node]
    have hni : xv (xiIdx (r + 1) - 1) = node xv (r + 1) := by
      simp only [xiIdx, node]
    constructor
    · intro i hi1 hi2
      by_cases hnew : i = r + 1
      · subst hnew
        constructor
        · rw [triBody_apply n xv x (J + 2) _ (r + 1) (r + 1 - 1) hn (by omega),
            if_pos rfl, hnij, hni, hv1, hv2, Pord_step_eval, e22]
          ring
        · rw [triBody_apply n xv x (J + 2) _ (r + 1) (2 * n + (r + 1) - 1) hn (by omega),
            if_neg (by omega), if_pos rfl, hnij, hni, hv1, hv2, hd1, hd2,
            Pord_step_derivative_eval, e22]
          ring
      · have hio : i ≤ r := by omega
        obtain ⟨g1, g2⟩ := ih1 i hi1 hio
        constructor
        · rw [triBody_apply n xv x (J + 2) _ (r + 1) (i - 1) hn (by omega),
            if_neg (by omega), if_neg (by omega), g1]
        · rw [triBody_apply n xv x (J + 2) _ (r + 1) (2 * n + i - 1) hn (by omega),
            if_neg (by omega), if_neg (by omega), g2]
    · intro i hi1 hi2
      obtain ⟨g1, g2⟩ := ih2 i (by omega) hi2
      constructor
      · rw [triBody_apply n xv x (J + 2) _ (r + 1) (i - 1) hn (by omega),
          if_neg (by omega), if_neg (by omega), g1]
      · rw [triBody_apply n xv x (J + 2) _ (r + 1) (2 * n + i - 1) hn (by omega),
          if_neg (by omega), if_neg (by omega), g2]

theorem goodCol_outer (n : ℕ) (hn : 1 ≤ n) (xv y : ℕ → ℚ) (x : ℚ) (w : ℕ → ℚ) :
    ∀ t, t ≤ 2 * n - 2 →
      goodCol n xv y x (t + 1)
        ((List.range' 2 t).foldl
          (fun a j => (List.range' 1 (2 * n - j)).foldl (triBody n xv x j) a)
          (boundaryStep n xv x (linearStage n xv x (initTable n y w))))
        (2 * n - (t + 1)) := by
  intro t
  induction t with
  | zero =>
    intro _
    have h0 : List.range' 2 0 = ([] : List ℕ) := rfl
    rw [h0, List.foldl_nil]
    exact goodCol_base n hn xv y x w
  | succ t ih =>
    intro ht
    rw [List.range'_concat, List.foldl_concat]
    have hidx : 2 + 1 * t = t + 2 := by omega
    rw [hidx]
    exact (goodCol_inner n hn xv y x t (2 * n - (t + 2)) le_rfl _ (ih (by omega))).1

/-- The returned pair equals the evaluation (value and derivative) at `x`
of the apex polynomial `Pord (2n-1) 1` of the triangular table, for every
`n ≥ 1` and every input — no distinctness needed, since both the table
and `Pord` use the same `q / 0 = 0` convention where a denominator
degenerates. -/
theorem hrmint_eval_Pord (n : ℕ) (hn : 1 ≤ n) (xv y : ℕ → ℚ) (x : ℚ) (w : ℕ → ℚ) :
    (hrmint (n : ℤ) xv y x w).2 =
      some ((Pord xv y (2 * n - 1) 1).eval x,
        (Polynomial.derivative (Pord xv y (2 * n - 1) 1)).eval x) := by
  obtain ⟨c1, c2⟩ := goodCol_outer n hn xv y x w (2 * n - 2) le_rfl 1 le_rfl (by omega)
  rw [show 2 * n - 2 + 1 = 2 * n - 1 from by omega] at c1 c2
  have hnn : ¬((n : ℤ) < 1) := by omega
  simp only [hrmint, if_neg hnn, Int.toNat_natCast]
  have heq : triangularStage n xv x
      (boundaryStep n xv x (linearStage n xv x (initTable n y w))) =
      (List.range' 2 (2 * n - 2)).foldl
        (fun a j => (List.range' 1 (2 * n - j)).foldl (triBody n xv x j) a)
        (boundaryStep n xv x (linearStage n xv x (initTable n y w))) := rfl
  rw [heq]
  rw [show (1 : ℕ) - 1 = 0 from rfl] at c1
  rw [show 2 * n + 1 - 1 = 2 * n from rfl] at c2
  rw [c1, c2]

/-! ## Osculation: `Pord` meets every value/derivative constraint -/

theorem node_pair (xv : ℕ → ℚ) (k : ℕ) (hk : k % 2 = 1) :
    node xv (k + 1) = node xv k := by
  simp only [node]
  congr 1
  omega

theorem node_lt_ne (n : ℕ) (xv : ℕ → ℚ)
    (hdist : ∀ p q, p < n → q < n → p ≠ q → xv p ≠ xv q) (a b : ℕ)
    (ha : 1 ≤ a) (hab : a + 2 ≤ b) (hb : b ≤ 2 * n) : node xv a ≠ node xv b := by
  simp only [node]
  apply hdist
  · omega
  · omega
  · omega

theorem Pord_osculates (n : ℕ) (xv y : ℕ → ℚ)
    (hdist : ∀ p q, p < n → q < n → p ≠ q → xv p ≠ xv q) :
    ∀ j, 1 ≤ j → ∀ i, 1 ≤ i → i + j ≤ 2 * n →
      (∀ k, i ≤ k → k ≤ i + j →
          (Pord xv y j i).eval (node xv k) = y (2 * ((k + 1) / 2) - 2)) ∧
        (∀ k, i ≤ k → k + 1 ≤ i + j → k % 2 = 1 →
          (Polynomial.derivative (Pord xv y j i)).eval (node xv k) =
            y (2 * ((k + 1) / 2) - 1)) := by
  intro j hj
  induction j, hj using Nat.le_induction with
  | base =>
    intro i hi1 hisum
    constructor
    · intro k hk1 hk2
      by_cases hodd : i % 2 = 1
      · rw [Pord_odd_eval xv y i hodd]
        have hnode : node xv k = xv ((i + 1) / 2 - 1) := by
          simp only [node]
          congr 1
          omega
        have hyv : y (2 * ((k + 1) / 2) - 2) = y (i - 1) := by
          congr 1
          omega
        rw [hnode, hyv]
        ring
      · rw [Pord_even_eval xv y i hodd]
        have hd : xv (i / 2) - xv (i / 2 - 1) ≠ 0 := by
          have := hdist (i / 2) (i / 2 - 1) (by omega) (by omega) (by omega)
          exact sub_ne_zero.mpr this
        rcases (by omega : k = i ∨ k = i + 1) with hk | hk
        · subst hk
          have hnode : node xv k = xv (k / 2 - 1) := by
            simp only [node]
            congr 1
            omega
          have hyv : y (2 * ((k + 1) / 2) - 2) = y (k - 2) := by
            congr 1
            omega
          rw [hnode, hyv]
          field_simp
        · subst hk
          have hnode : node xv (i + 1) = xv (i / 2) := by
            simp only [node]
            congr 1
            omega
          have hyv : y (2 * ((i + 1 + 1) / 2) - 2) = y i := by
            congr 1
            omega
          rw [hnode, hyv]
          field_simp
    · intro k hk1 hk2 hkodd
      by_cases hodd : i % 2 = 1
      · have hk : k = i := by omega
        subst hk
        rw [Pord_odd_derivative_eval xv y k hodd]
        congr 1
        omega
      · omega
  | succ j hj ih =>
    intro i hi1 hisum
    obtain ⟨J, rfl⟩ : ∃ J, j = J + 1 := ⟨j - 1, by omega⟩
    have e21 : J + 1 + 1 = J + 2 := rfl
    obtain ⟨IH1v, IH1d⟩ := ih i hi1 (by omega)
    obtain ⟨IH2v, IH2d⟩ := ih (i + 1) (by omega) (by omega)
    have hne : node xv i ≠ node xv (i + (J + 2)) :=
      node_lt_ne n xv hdist i (i + (J + 2)) hi1 (by omega) (by omega)
    have hd : node xv (i + (J + 2)) - node xv i ≠ 0 :=
      sub_ne_zero.mpr (Ne.symm hne)
    constructor
    · intro k hk1 hk2
      rw [e21, Pord_step_eval]
      rcases (by omega : k = i ∨ k = i + (J + 2) ∨ (i + 1 ≤ k ∧ k ≤ i + (J + 1)))
        with hk | hk | ⟨hka, hkb⟩
      · subst hk
        rw [IH1v k le_rfl (by omega), sub_self, zero_mul, add_zero, one_div,
          inv_mul_cancel_left₀ hd]
      · subst hk
        rw [IH2v (i + (J + 2)) (by omega) (by omega), sub_self, zero_mul, zero_add]
        field_simp
      · rw [IH1v k (by omega) (by omega), IH2v k (by omega) (by omega)]
        field_simp
        ring
    · intro k hk1 hk2 hkodd
      rw [e21, Pord_step_derivative_eval]
      rcases (by omega : k = i ∨ k = i + (J + 1) ∨ (i + 1 ≤ k ∧ k + 1 ≤ i + (J + 1)))
        with hk | hk | ⟨hka, hkb⟩
      · subst hk
        have hnp : node xv (k + 1) = node xv k := node_pair xv k hkodd
        have hQ2 : (Pord xv y (J + 1) (k + 1)).eval (node xv k) =
            y (2 * ((k + 1 + 1) / 2) - 2) := by
          rw [← hnp]
          exact IH2v (k + 1) le_rfl (by omega)
        have hyy : y (2 * ((k + 1 + 1) / 2) - 2) = y (2 * ((k + 1) / 2) - 2) := by
          congr 1
          omega
        rw [IH1d k le_rfl (by omega) hkodd, IH1v k le_rfl (by omega), hQ2, hyy]
        field_simp
      · subst hk
        have hnm : node xv (i + (J + 2)) = node xv (i + (J + 1)) := by
          simp only [node]
          congr 1
          omega
        rw [hnm] at hd
        rw [hnm]
        rw [IH2d (i + (J + 1)) (by omega) (by omega) hkodd,
          IH2v (i + (J + 1)) (by omega) (by omega),
          IH1v (i + (J + 1)) (by omega) (by omega)]
        field_simp
      · rw [IH1d k (by omega) (by omega) hkodd, IH2d k (by omega) (by omega) hkodd,
          IH1v k (by omega) (by omega), IH2v k (by omega) (by omega)]
        field_simp
        ring

/-! ## Degree bound for `Pord` -/

theorem natDegree_C_sub_X_le (c : ℚ) :
    (Polynomial.C c - Polynomial.X).natDegree ≤ 1 := by
  refine le_trans (Polynomial.natDegree_sub_le _ _) ?_
  simp [Polynomial.natDegree_X]

theorem natDegree_X_sub_C_le (c : ℚ) :
    (Polynomial.X - Polynomial.C c).natDegree ≤ 1 := by
  simp [Polynomial.natDegree_X_sub_C]

theorem Pord_natDegree_le (xv y : ℕ → ℚ) : ∀ j i, (Pord xv y j i).natDegree ≤ j := by
  intro j
  induction j using Nat.strong_induction_on with
  | _ j ih =>
    intro i
    rcases j with _ | _ | J
    · simp [Pord]
    · show (Pord xv y 1 i).natDegree ≤ 1
      by_cases hodd : i % 2 = 1
      · rw [Pord, if_pos hodd]
        refine le_trans (Polynomial.natDegree_add_le _ _) ?_
        rw [max_le_iff]
        constructor
        · simp
        · refine le_trans (Polynomial.natDegree_mul_le) ?_
          have h1 := natDegree_X_sub_C_le (xv ((i + 1) / 2 - 1))
          simp only [Polynomial.natDegree_C]
          omega
      · rw [Pord, if_neg hodd]
        refine le_trans (Polynomial.natDegree_C_mul_le _ _) ?_
        refine le_trans (Polynomial.natDegree_add_le _ _) ?_
        rw [max_le_iff]
        constructor
        · refine le_trans (Polynomial.natDegree_mul_le) ?_
          have h1 := natDegree_C_sub_X_le (xv (i / 2))
          simp only [Polynomial.natDegree_C]
          omega
        · refine le_trans (Polynomial.natDegree_mul_le) ?_
          have h1 := natDegree_X_sub_C_le (xv (i / 2 - 1))
          simp only [Polynomial.natDegree_C]
          omega
    · show (Pord xv y (J + 2) i).natDegree ≤ J + 2
      have h1 := ih (J + 1) (by omega) i
      have h2 := ih (J + 1) (by omega) (i + 1)
      rw [Pord]
      refine le_trans (Polynomial.natDegree_C_mul_le _ _) ?_
      refine le_trans (Polynomial.natDegree_add_le _ _) ?_
      rw [max_le_iff]
      constructor
      · refine le_trans (Polynomial.natDegree_mul_le) ?_
        have h3 := natDegree_C_sub_X_le (node xv (i + (J + 2)))
        omega
      · refine le_trans (Polynomial.natDegree_mul_le) ?_
        have h3 := natDegree_X_sub_C_le (node xv i)
        omega

/-! ## Uniqueness of the osculating polynomial -/

theorem sq_dvd_of_root_of_derivative_root (D : Polynomial ℚ) (a : ℚ)
    (h0 : D.eval a = 0) (h1 : (Polynomial.derivative D).eval a = 0) :
    (Polynomial.X - Polynomial.C a) ^ 2 ∣ D := by
  obtain ⟨E, hE⟩ := Polynomial.dvd_iff_isRoot.mpr h0
  have hD : Polynomial.derivative D =
      E + (Polynomial.X - Polynomial.C a) * Polynomial.derivative E := by
    rw [hE, Polynomial.derivative_mul]
    simp
  have hEa : E.eval a = 0 := by
    have h2 := congrArg (Polynomial.eval a) hD
    simp only [Polynomial.eval_add, Polynomial.eval_mul, Polynomial.eval_sub,
      Polynomial.eval_X, Polynomial.eval_C, sub_self, zero_mul, add_zero] at h2
    rw [h1] at h2
    exact h2.symm
  obtain ⟨F, hF⟩ := Polynomial.dvd_iff_isRoot.mpr hEa
  exact ⟨F, by rw [hE, hF]; ring⟩

theorem prod_sq_dvd_aux (n : ℕ) (xv : ℕ → ℚ)
    (hdist : ∀ p q, p < n → q < n → p ≠ q → xv p ≠ xv q) (D : Polynomial ℚ)
    (hval : ∀ p, p < n → D.eval (xv p) = 0)
    (hder : ∀ p, p < n → (Polynomial.derivative D).eval (xv p) = 0) :
    ∀ m, m ≤ n →
      (∏ p ∈ Finset.range m, (Polynomial.X - Polynomial.C (xv p)) ^ 2) ∣ D := by
  intro m
  induction m with
  | zero => intro _; simp
  | succ m ih =>
    intro hm
    rw [Finset.prod_range_succ]
    refine IsCoprime.mul_dvd ?_ (ih (by omega)) ?_
    · refine IsCoprime.prod_left ?_
      intro p hp
      rw [Finset.mem_range] at hp
      have hne : xv p ≠ xv m := hdist p m (by omega) (by omega) (by omega)
      have hco : IsCoprime (Polynomial.X - Polynomial.C (xv p))
          (Polynomial.X - Polynomial.C (xv m)) :=
        Polynomial.isCoprime_X_sub_C_of_isUnit_sub
          (isUnit_iff_ne_zero.mpr (sub_ne_zero.mpr hne))
      exact hco.pow
    · exact sq_dvd_of_root_of_derivative_root D (xv m) (hval m (by omega)) (hder m (by omega))

theorem prod_sq_natDegree (n : ℕ) (xv : ℕ → ℚ) :
    (∏ p ∈ Finset.range n, (Polynomial.X - Polynomial.C (xv p)) ^ 2).natDegree = 2 * n := by
  rw [Polynomial.natDegree_prod_of_monic]
  · simp [Polynomial.natDegree_pow, Polynomial.natDegree_X_sub_C]
    ring
  · intro p _
    exact (Polynomial.monic_X_sub_C (xv p)).pow _

theorem hermite_vanish_eq_zero (n : ℕ) (hn : 1 ≤ n) (xv : ℕ → ℚ)
    (hdist : ∀ p q, p < n → q < n → p ≠ q → xv p ≠ xv q) (D : Polynomial ℚ)
    (hdeg : D.natDegree ≤ 2 * n - 1)
    (hval : ∀ p, p < n → D.eval (xv p) = 0)
    (hder : ∀ p, p < n → (Polynomial.derivative D).eval (xv p) = 0) : D = 0 := by
  by_contra hD0
  have hdvd := prod_sq_dvd_aux n xv hdist D hval hder n le_rfl
  have hle := Polynomial.natDegree_le_of_dvd hdvd hD0
  rw [prod_sq_natDegree] at hle
  omega

/-! ## Main correctness theorem and claims C1, C4 -/

/-- With `n ≥ 1` and pairwise-distinct abscissas, the pair the evaluator
returns is the value and derivative at `x` of any polynomial of degree at
most `2n - 1` matching all `n` value/derivative constraints (such a
polynomial is unique, by `hermite_vanish_eq_zero`). -/
theorem hrmint_eq_poly (n : ℕ) (hn : 1 ≤ n) (xv y : ℕ → ℚ) (x : ℚ) (w : ℕ → ℚ)
    (hdist : ∀ p q, p < n → q < n → p ≠ q → xv p ≠ xv q)
    (P : Polynomial ℚ) (hdeg : P.natDegree ≤ 2 * n - 1)
    (hval : ∀ p, p < n → P.eval (xv p) = y (2 * p))
    (hder : ∀ p, p < n → (Polynomial.derivative P).eval (xv p) = y (2 * p + 1)) :
    (hrmint (n : ℤ) xv y x w).2 = some (P.eval x, (Polynomial.derivative P).eval x) := by
  obtain ⟨hoscv, hoscd⟩ :=
    Pord_osculates n xv y hdist (2 * n - 1) (by omega) 1 le_rfl (by omega)
  have hQval : ∀ p, p < n → (Pord xv y (2 * n - 1) 1).eval (xv p) = y (2 * p) := by
    intro p hp
    have h := hoscv (2 * p + 1) (by omega) (by omega)
    have hnd : node xv (2 * p + 1) = xv p := by
      simp only [node]
      congr 1
      omega
    rw [hnd] at h
    rw [h]
    congr 1
    omega
  have hQder : ∀ p, p < n →
      (Polynomial.derivative (Pord xv y (2 * n - 1) 1)).eval (xv p) = y (2 * p + 1) := by
    intro p hp
    have h := hoscd (2 * p + 1) (by omega) (by omega) (by omega)
    have hnd : node xv (2 * p + 1) = xv p := by
      simp only [node]
      congr 1
      omega
    rw [hnd] at h
    rw [h]
    congr 1
    omega
  have hQdeg : (Pord xv y (2 * n - 1) 1).natDegree ≤ 2 * n - 1 :=
    Pord_natDegree_le xv y (2 * n - 1) 1
  have hPQ : P = Pord xv y (2 * n - 1) 1 := by
    have hz := hermite_vanish_eq_zero n hn xv hdist (P - Pord xv y (2 * n - 1) 1)
      ((Polynomial.natDegree_sub_le _ _).trans (max_le hdeg hQdeg))
      (fun p hp => by simp [hval p hp, hQval p hp])
      (fun p hp => by simp [hder p hp, hQder p hp])
    exact sub_eq_zero.mp hz
  rw [hrmint_eval_Pord n hn xv y x w, hPQ]

/-- C1: for every `N ≥ 1`, pairwise-distinct abscissas, value/derivative
data and evaluation point `x`, the call returns `f = P(x)` and
`df = P'(x)` where `P` is the (unique) polynomial of degree at most
`2N - 1` with `P(x_p) = y_p` and `P'(x_p) = y'_p` for all `p`. -/
theorem hrmint_computes_hermite_interpolant (n : ℕ) (hn : 1 ≤ n) (xv y : ℕ → ℚ)
    (x : ℚ) (w : ℕ → ℚ)
    (hdist : ∀ p q, p < n → q < n → p ≠ q → xv p ≠ xv q)
    (P : Polynomial ℚ) (hdeg : P.natDegree ≤ 2 * n - 1)
    (hval : ∀ p, p < n → P.eval (xv p) = y (2 * p))
    (hder : ∀ p, p < n → (Polynomial.derivative P).eval (xv p) = y (2 * p + 1)) :
    (hrmint (n : ℤ) xv y x w).2 = some (P.eval x, (Polynomial.derivative P).eval x) :=
  hrmint_eq_poly n hn xv y x w hdist P hdeg hval hder

/-- The polynomial `x^7 + 2x^2 + 5` of the documentation example. -/
noncomputable def exP : Polynomial ℚ :=
  Polynomial.X ^ 7 + Polynomial.C 2 * Polynomial.X ^ 2 + Polynomial.C 5

theorem exP_natDegree : exP.natDegree ≤ 7 := by
  unfold exP
  compute_degree

theorem exP_eval (t : ℚ) : exP.eval t = t ^ 7 + 2 * t ^ 2 + 5 := by
  simp [exP]

theorem exP_derivative_eval (t : ℚ) :
    (Polynomial.derivative exP).eval t = 7 * t ^ 6 + 4 * t := by
  simp [exP, Polynomial.derivative_X_pow]
  ring

theorem exXvals_injective : ∀ p q, p < 4 → q < 4 → p ≠ q → exXvals p ≠ exXvals q := by
  intro p q hp hq hne
  interval_cases p <;> interval_cases q <;> first | exact absurd rfl hne | norm_num [exXvals]

theorem exP_matches_values : ∀ p, p < 4 → exP.eval (exXvals p) = exYvals (2 * p) := by
  intro p hp
  interval_cases p <;> rw [exP_eval] <;> norm_num [exXvals, exYvals]

theorem exP_matches_derivs :
    ∀ p, p < 4 → (Polynomial.derivative exP).eval (exXvals p) = exYvals (2 * p + 1) := by
  intro p hp
  interval_cases p <;> rw [exP_derivative_eval] <;> norm_num [exXvals, exYvals]

/-- C4: on the documentation example (`N = 4`, abscissas `{-1, 0, 3, 5}`,
the constraints of `x^7 + 2x^2 + 5`), evaluating at `x = 2` returns
exactly `f = 141` and `df = 456`. -/
theorem hrmint_doc_example :
    (hrmint 4 exXvals exYvals 2 (fun _ => 0)).2 = some (141, 456) := by
  have h := hrmint_eq_poly 4 (by norm_num) exXvals exYvals 2 (fun _ => 0)
    exXvals_injective exP exP_natDegree exP_matches_values exP_matches_derivs
  rw [show ((4 : ℕ) : ℤ) = (4 : ℤ) from by norm_num] at h
  rw [h, exP_eval, exP_derivative_eval]
  norm_num

theorem hrmint_computes_hermite_interpolant_witness :
    (hrmint 4 exXvals exYvals 0 (fun _ => 0)).2 = some (5, 0) := by
  have h := hrmint_computes_hermite_interpolant 4 (by norm_num) exXvals exYvals 0
    (fun _ => 0) exXvals_injective exP exP_natDegree exP_matches_values exP_matches_derivs
  rw [show ((4 : ℕ) : ℤ) = (4 : ℤ) from by norm_num] at h
  rw [h, exP_eval, exP_derivative_eval]
  norm_num

end Hrmint
